import Mathlib

/-!
Shallow embedding of the layered CLAUDE.md merge engine
(src/claude-system/merger.py) and verification of its specification.

Tier naming: the source uses the strings "universal", "company", "project",
"developer"; the specification calls the same four layers universal,
organization, project, individual.  Filesystem reads are modelled as
explicit inputs (an absent file is `none`); `datetime.now()` is modelled as
an explicit `now : String` argument; the destination/backup/report writes
are recorded in a `MergeResult` value instead of performed.
-/

namespace ClaudeMerger

/-- Output shape of the (external-collaborator) markdown splitter
`parse_markdown_sections`: a raw `{title, content, level}` block. -/
structure RawSection where
  title : String
  content : String
  level : Nat
deriving DecidableEq

/-- Models `hashlib.md5(content).hexdigest()` abstractly: the code relies
only on the digest being a deterministic, collision-free function of the
content, so the embedding uses the content itself as the digest. -/
def chksum (content : String) : String := content

/-- The `Section` dataclass of merger.py. -/
structure Section where
  title : String
  content : String
  level : Nat := 1
  source : String := "universal"
  checksum : String := ""
  override_allowed : Bool := true
  metadata : List (String × String) := []
deriving DecidableEq

/-- `Section(title=..., content=..., level=..., source=...)` with
`__post_init__` computing the checksum (no explicit checksum is ever
passed in merger.py). -/
def mkSection (r : RawSection) (src : String) : Section :=
  { title := r.title, content := r.content, level := r.level,
    source := src, checksum := chksum r.content,
    override_allowed := true, metadata := [] }

/-- A Python `dict[str, Section]`, as an insertion-ordered association
list with unique keys (updates replace in place, like `dict.__setitem__`). -/
def Mapping : Type := List (String × Section)

instance : DecidableEq Mapping := by unfold Mapping; infer_instance

/-- Dict access `m[k]` / `k in m`. -/
def find? (m : Mapping) (k : String) : Option Section :=
  match m with
  | [] => none
  | (k', v) :: rest => if k' == k then some v else find? rest k

/-- Dict update `m[k] = v`: replaces in place, else appends. -/
def dinsert (m : Mapping) (k : String) (v : Section) : Mapping :=
  match m with
  | [] => [(k, v)]
  | (k', v') :: rest =>
      if k' == k then (k, v) :: rest else (k', v') :: dinsert rest k v

/-- `list(m.keys())`. -/
def keysOf (m : Mapping) : List String :=
  (m : List (String × Section)).map Prod.fst

/-- `list(m.values())`. -/
def valuesOf (m : Mapping) : List Section :=
  (m : List (String × Section)).map Prod.snd

/-- One step of the `core.md` loop of `load_universal_base`:
`base_sections[section.title] = section`. -/
def universalStep (m : Mapping) (r : RawSection) : Mapping :=
  dinsert m r.title (mkSection r "universal")

/-- One step of a language file's loop in `load_universal_base`:
`section.metadata['language'] = stem; base_sections[f"{stem}:{title}"] = section`. -/
def langStep (stem : String) (m : Mapping) (r : RawSection) : Mapping :=
  dinsert m (stem ++ ":" ++ r.title)
    { mkSection r "universal" with metadata := [("language", stem)] }

/-- `load_universal_base`: fold the core template's sections keyed by
title, then each language file's sections keyed `"<stem>:<title>"` with a
`language` metadata entry.  `none` models a file that does not exist. -/
def loadUniversalBase (core : Option (List RawSection))
    (langs : List (String × List RawSection)) : Mapping :=
  let base : Mapping :=
    match core with
    | none => ([] : Mapping)
    | some rs => rs.foldl universalStep ([] : Mapping)
  langs.foldl (fun m lf => lf.2.foldl (langStep lf.1) m) base

/-- One step of the `apply_company_overrides` loop: a company section
replaces or adds its identity unconditionally. -/
def companyStep (m : Mapping) (r : RawSection) : Mapping :=
  dinsert m r.title (mkSection r "company")

/-- `_apply_role_filters`: drop every section whose lowercased title
contains one of the excluded substrings. -/
def strContainsSub (hay needle : List Char) : Bool :=
  match hay with
  | [] => needle.isEmpty
  | _ :: t => needle.isPrefixOf hay || strContainsSub t needle

def applyRoleFilters (m : Mapping) (excludes : List String) : Mapping :=
  (m : List (String × Section)).filter
    (fun kv => !(excludes.any (fun e => strContainsSub kv.2.title.toLower.data e.data)))

/-- `apply_company_overrides`: no-op when `.claude-company/` is absent;
otherwise fold `standards.md` (when present), then role-filter when the
company config declares roles (`roleExclusions = some _`). -/
def applyCompanyOverrides (m : Mapping) (companyDirExists : Bool)
    (standards : Option (List RawSection))
    (roleExclusions : Option (List String)) : Mapping :=
  if !companyDirExists then m
  else
    let m1 :=
      match standards with
      | none => m
      | some rs => rs.foldl companyStep m
    match roleExclusions with
    | none => m1
    | some excl => applyRoleFilters m1 excl

/-- One step of the `apply_project_customizations` loop: skip when the
existing section is a non-overridable company section, else replace/add. -/
def projectStep (m : Mapping) (r : RawSection) : Mapping :=
  match find? m r.title with
  | some existing =>
      if !existing.override_allowed && existing.source == "company" then m
      else dinsert m r.title (mkSection r "project")
  | none => dinsert m r.title (mkSection r "project")

/-- `apply_project_customizations`; `none` models a missing
`.claude-project/overrides.md`. -/
def applyProjectCustomizations (m : Mapping)
    (overrides : Option (List RawSection)) : Mapping :=
  match overrides with
  | none => m
  | some rs => rs.foldl projectStep m

/-- One step of the `apply_developer_preferences` loop: skip when the
existing section came from the universal or company tier, else replace/add. -/
def developerStep (m : Mapping) (r : RawSection) : Mapping :=
  match find? m r.title with
  | some existing =>
      if existing.source == "universal" || existing.source == "company" then m
      else dinsert m r.title (mkSection r "developer")
  | none => dinsert m r.title (mkSection r "developer")

/-- `apply_developer_preferences`: no-op unless
`config['project']['developer_overrides']['enabled']`; `none` models a
missing `developer/<username>.md`. -/
def applyDeveloperPreferences (m : Mapping) (enabled : Bool)
    (devFile : Option (List RawSection)) : Mapping :=
  if !enabled then m
  else
    match devFile with
    | none => m
    | some rs => rs.foldl developerStep m

/-- Python string comparison (`<` on code points), on char lists. -/
def charListLt : List Char → List Char → Bool
  | _, [] => false
  | [], _ :: _ => true
  | a :: as, b :: bs =>
      a.toNat < b.toNat || (a.toNat == b.toNat && charListLt as bs)

def strLtB (a b : String) : Bool := charListLt a.data b.data

/-- The sort key of `generate_claude_md`: `(s.level, s.title)`,
compared lexicographically as Python `sorted` does. -/
def keyLt (a b : Section) : Bool :=
  decide (a.level < b.level) || (a.level == b.level && strLtB a.title b.title)

/-- Stable insertion used to model Python's stable `sorted`. -/
def insSorted (s : Section) : List Section → List Section
  | [] => [s]
  | t :: ts => if keyLt t s then t :: insSorted s ts else s :: t :: ts

/-- `sorted(sections.values(), key=lambda s: (s.level, s.title))`. -/
def sortSections : List Section → List Section
  | [] => []
  | x :: xs => insSorted x (sortSections xs)

def repeatStr (n : Nat) (c : Char) : String := String.mk (List.replicate n c)

/-- `generate_claude_md`: header (with the current timestamp), then the
sections sorted by `(level, title)`; per-section provenance comment when
the `CLAUDE_DEBUG` environment flag is set. -/
def generateClaudeMd (now : String) (debug : Bool) (sections : Mapping) : String :=
  let header : List String :=
    ["# CLAUDE.md - Generated " ++ now, "",
     "*This file is auto-generated from 3-tier template system. Do not edit directly.*", ""]
  let sorted := sortSections (valuesOf sections)
  let body := sorted.foldl
    (fun out s =>
      let out := out ++ [repeatStr s.level '#' ++ " " ++ s.title, ""]
      let out := if s.content != "" then out ++ [s.content, ""] else out
      if debug then
        out ++ ["<!-- Source: " ++ s.source ++ ", Checksum: " ++ s.checksum ++ " -->", ""]
      else out)
    ([] : List String)
  String.intercalate "\n" (header ++ body)

structure AddedEntry where
  sectionKey : String
  source : String
  title : String
deriving DecidableEq

structure RemovedEntry where
  sectionKey : String
  source : String
  title : String
deriving DecidableEq

structure ModifiedEntry where
  sectionKey : String
  source_before : String
  source_after : String
  title : String
deriving DecidableEq

structure Violation where
  sectionKey : String
  policy : String
  attempted_by : String
deriving DecidableEq

structure Changes where
  added : List AddedEntry
  removed : List RemovedEntry
  modified : List ModifiedEntry
  conflicts : List String
  policy_violations : List Violation
deriving DecidableEq

/-- `analyze_changes`: every set is inferred from the `before`/`after`
mappings (dict-key iteration with dict access); the policy-violation scan
runs only when a company config is loaded. -/
def analyzeChanges (hasCompanyCfg : Bool) (before after : Mapping) : Changes :=
  let added := (keysOf after).filterMap fun k =>
    match find? before k with
    | some _ => none
    | none =>
        match find? after k with
        | some s => some { sectionKey := k, source := s.source, title := s.title }
        | none => none
  let removed := (keysOf before).filterMap fun k =>
    match find? after k with
    | some _ => none
    | none =>
        match find? before k with
        | some s => some { sectionKey := k, source := s.source, title := s.title }
        | none => none
  let modified := (keysOf after).filterMap fun k =>
    match find? after k, find? before k with
    | some a, some b =>
        if a.checksum != b.checksum then
          some { sectionKey := k, source_before := b.source,
                 source_after := a.source, title := a.title }
        else none
    | _, _ => none
  let violations :=
    if hasCompanyCfg then
      (keysOf after).filterMap fun k =>
        match find? after k with
        | some s =>
            if s.source == "project" then
              match find? before k with
              | some original =>
                  if original.source == "company" && !original.override_allowed then
                    some { sectionKey := k, policy := "Cannot override company policy",
                           attempted_by := s.source }
                  else none
              | none => none
            else none
        | none => none
    else []
  { added := added, removed := removed, modified := modified,
    conflicts := [], policy_violations := violations }

/-- `generate_dry_run_report`. -/
def generateDryRunReport (now : String) (changes : Changes) (content : String) : String :=
  let base : List String :=
    [repeatStr 60 '=', "CLAUDE.md DRY RUN REPORT", repeatStr 60 '=',
     "Generated: " ++ now, "", "SUMMARY", repeatStr 20 '-',
     "✅ Added sections: " ++ toString changes.added.length,
     "❌ Removed sections: " ++ toString changes.removed.length,
     "📝 Modified sections: " ++ toString changes.modified.length,
     "⚠️  Conflicts: " ++ toString changes.conflicts.length,
     "🚫 Policy violations: " ++ toString changes.policy_violations.length, ""]
  let addedBlock : List String :=
    if changes.added.isEmpty then []
    else ["ADDED SECTIONS", repeatStr 20 '-'] ++
      changes.added.map (fun a => "+ " ++ a.title ++ " (from: " ++ a.source ++ ")") ++ [""]
  let removedBlock : List String :=
    if changes.removed.isEmpty then []
    else ["REMOVED SECTIONS", repeatStr 20 '-'] ++
      changes.removed.map (fun a => "- " ++ a.title ++ " (was from: " ++ a.source ++ ")") ++ [""]
  let modifiedBlock : List String :=
    if changes.modified.isEmpty then []
    else ["MODIFIED SECTIONS", repeatStr 20 '-'] ++
      (changes.modified.map (fun a =>
        ["~ " ++ a.title, "  Before: " ++ a.source_before, "  After: " ++ a.source_after])).flatten ++ [""]
  let violBlock : List String :=
    if changes.policy_violations.isEmpty then []
    else ["⚠️  POLICY VIOLATIONS", repeatStr 20 '-'] ++
      (changes.policy_violations.map (fun v =>
        ["❌ Section: " ++ v.sectionKey, "   Policy: " ++ v.policy,
         "   Attempted by: " ++ v.attempted_by])).flatten ++ [""]
  let contentLines := content.splitOn "\n"
  let preview : List String :=
    ["PREVIEW (first 50 lines)", repeatStr 20 '-'] ++ contentLines.take 50 ++
      (if contentLines.length > 50 then ["... (truncated)"] else [])
  String.intercalate "\n" (base ++ addedBlock ++ removedBlock ++ modifiedBlock ++ violBlock ++ preview)

/-- The filesystem/config state `merge` consumes.  `none` models a file or
directory that does not exist; the parsed section lists stand for what
`parse_markdown_sections` returns on the corresponding file's text. -/
structure MergerInputs where
  universalCore : Option (List RawSection)
  universalLangs : List (String × List RawSection)
  companyDirExists : Bool
  companyStandards : Option (List RawSection)
  roleExclusions : Option (List String)
  projectOverrides : Option (List RawSection)
  developerEnabled : Bool
  developerFile : Option (List RawSection)
  hasCompanyCfg : Bool
  destinationExists : Bool
  debug : Bool

/-- The externally visible effects of one `merge` call (writes are
recorded, not performed). -/
structure MergeResult where
  returned : String
  destWrite : Option String
  backupMade : Bool
  reportWrite : Option String
  previewWrite : Option String
deriving DecidableEq

/-- The tier fold of `merge`: universal base, company overrides, project
customizations, then (only when a username was supplied) developer
preferences. -/
def resolveSections (inp : MergerInputs) (username : Option String) : Mapping :=
  let original := loadUniversalBase inp.universalCore inp.universalLangs
  let s1 := applyCompanyOverrides original inp.companyDirExists
    inp.companyStandards inp.roleExclusions
  let s2 := applyProjectCustomizations s1 inp.projectOverrides
  match username with
  | none => s2
  | some _ => applyDeveloperPreferences s2 inp.developerEnabled inp.developerFile

/-- The commit branch of `merge` after `analyze_changes`: raise on any
policy violation, else back up an existing destination and write. -/
def commitPhase (changes : Changes) (content : String)
    (destExists : Bool) : Except String MergeResult :=
  if !changes.policy_violations.isEmpty then
    Except.error "Policy violations prevent merge. Run with --dry-run to see details."
  else
    Except.ok { returned := content, destWrite := some content,
                backupMade := destExists, reportWrite := none, previewWrite := none }

/-- `ClaudeMerger.merge`: resolve all tiers, render, then either produce
the dry-run report (writing report and preview files, never the
destination) or run the policy gate and write the destination. -/
def merge (inp : MergerInputs) (username : Option String) (dryRun : Bool)
    (now : String) : Except String MergeResult :=
  let original := loadUniversalBase inp.universalCore inp.universalLangs
  let sections := resolveSections inp username
  let content := generateClaudeMd now inp.debug sections
  if dryRun then
    let changes := analyzeChanges inp.hasCompanyCfg original sections
    let report := generateDryRunReport now changes content
    Except.ok { returned := report, destWrite := none, backupMade := false,
                reportWrite := some report, previewWrite := some content }
  else
    let changes := analyzeChanges inp.hasCompanyCfg original sections
    commitPhase changes content inp.destinationExists

/-- The destination write (if any) an invocation performed. -/
def destOf : Except String MergeResult → Option String
  | Except.ok r => r.destWrite
  | Except.error _ => none

def isOk : Except String MergeResult → Bool
  | Except.ok _ => true
  | Except.error _ => false

/-- Non-strict counterpart of `keyLt`: `a` need not come after `b` in the
rendered order (`b` is not strictly below `a` on `(level, title)`). -/
def keyLe (a b : Section) : Prop := keyLt b a = false

/-- Stated from the spec's words, for comparison with the code's
rendering order: sort the mapping's *entries* by `(level, identity)`,
where identity is the mapping key (possibly `"<scope>:<title>"`), then
take the section values. -/
def entryKeyLt (a b : String × Section) : Bool :=
  decide (a.2.level < b.2.level) || (a.2.level == b.2.level && strLtB a.1 b.1)

def insSortedEntry (e : String × Section) :
    List (String × Section) → List (String × Section)
  | [] => [e]
  | t :: ts => if entryKeyLt t e then t :: insSortedEntry e ts else e :: t :: ts

def sortEntries : List (String × Section) → List (String × Section)
  | [] => []
  | x :: xs => insSortedEntry x (sortEntries xs)

/-- The section sequence the spec claims the WRITE step renders:
ordered by `level` ascending then identity (mapping key) ascending. -/
def specRenderOrder (m : Mapping) : List Section :=
  (sortEntries (m : List (String × Section))).map Prod.snd

/-! ### Concrete fixtures (used by closed witness/counterexample theorems) -/

/-- A universal-tier section, overridable (the parser's default). -/
def secU : Section :=
  { title := "A", content := "base content", level := 1, source := "universal",
    checksum := chksum "base content", override_allowed := true, metadata := [] }

/-- A universal-tier section marked non-overridable. -/
def secULocked : Section :=
  { title := "A", content := "base content", level := 1, source := "universal",
    checksum := chksum "base content", override_allowed := false, metadata := [] }

/-- A company-tier (organization) section marked non-overridable. -/
def secCompanyLocked : Section :=
  { title := "A", content := "company policy", level := 1, source := "company",
    checksum := chksum "company policy", override_allowed := false, metadata := [] }

/-- A project-tier section whose content is "same". -/
def secProjSame : Section :=
  { title := "A", content := "same", level := 1, source := "project",
    checksum := chksum "same", override_allowed := true, metadata := [] }

/-- A `MergerInputs` record in which every tier supplies one section
titled "A" and every optional feature is enabled. -/
def allTiersInputs : MergerInputs :=
  { universalCore := some [⟨"A", "u-content", 1⟩], universalLangs := [],
    companyDirExists := true, companyStandards := some [⟨"A", "c-content", 1⟩],
    roleExclusions := none, projectOverrides := some [⟨"A", "p-content", 1⟩],
    developerEnabled := true, developerFile := some [⟨"A", "d-content", 1⟩],
    hasCompanyCfg := true, destinationExists := false, debug := false }

/-- A scope-qualified universal section (identity `"python:Alpha"`). -/
def sectionAlpha : Section :=
  { title := "Alpha", content := "x", level := 1, source := "universal",
    checksum := chksum "x", override_allowed := true,
    metadata := [("language", "python")] }

/-- A plain universal section (identity `"Beta"`). -/
def sectionBeta : Section :=
  { title := "Beta", content := "y", level := 1, source := "universal",
    checksum := chksum "y", override_allowed := true, metadata := [] }

/-- A `MergerInputs` record with every tier's material absent. -/
def emptyInputs : MergerInputs :=
  { universalCore := none, universalLangs := [], companyDirExists := false,
    companyStandards := none, roleExclusions := none, projectOverrides := none,
    developerEnabled := false, developerFile := none, hasCompanyCfg := false,
    destinationExists := false, debug := false }

/-! ### Dictionary lemmas -/

theorem find?_dinsert_self (m : Mapping) (k : String) (v : Section) :
    find? (dinsert m k v) k = some v := by
  induction m with
  | nil => simp [dinsert, find?]
  | cons hd tl ih =>
      obtain ⟨k', v'⟩ := hd
      by_cases h : k' = k
      · simp [dinsert, find?, h]
      · simp [dinsert, find?, h, ih]

theorem find?_dinsert_ne (m : Mapping) (k k' : String) (v : Section)
    (h : k' ≠ k) : find? (dinsert m k' v) k = find? m k := by
  induction m with
  | nil => simp [dinsert, find?, h]
  | cons hd tl ih =>
      obtain ⟨k0, v0⟩ := hd
      by_cases h0 : k0 = k'
      · simp [dinsert, find?, h0, h]
      · by_cases h1 : k0 = k <;> simp [dinsert, find?, h0, h1, Ne.symm h, ih]

theorem find?_isSome_of_mem_keys (m : Mapping) (k : String)
    (h : k ∈ keysOf m) : ∃ s, find? m k = some s := by
  induction m with
  | nil => simp [keysOf] at h
  | cons hd tl ih =>
      obtain ⟨k0, v0⟩ := hd
      rcases (by simpa [keysOf] using h) with h0 | h0
      · exact ⟨v0, by simp [find?, h0]⟩
      · by_cases hk : k0 = k
        · exact ⟨v0, by simp [find?, hk]⟩
        · obtain ⟨s, hs⟩ := ih (by simpa [keysOf] using h0)
          exact ⟨s, by simp [find?, hk, hs]⟩

/-! ### Characterizations of the per-tier fold steps -/

theorem projectStep_eq (M : Mapping) (r : RawSection) (ex : Section)
    (hfind : find? M r.title = some ex) :
    projectStep M r =
      (if ex.override_allowed = false ∧ ex.source = "company" then M
       else dinsert M r.title (mkSection r "project")) := by
  unfold projectStep
  rw [hfind]
  by_cases h : ex.override_allowed = false ∧ ex.source = "company"
  · simp [h.1, h.2]
  · rcases not_and_or.mp h with h1 | h1
    · have : ex.override_allowed = true := by
        cases hoa : ex.override_allowed
        · exact absurd hoa h1
        · rfl
      simp [this, h]
    · simp [h, h1]

theorem developerStep_eq (M : Mapping) (r : RawSection) (ex : Section)
    (hfind : find? M r.title = some ex) :
    developerStep M r =
      (if ex.source = "universal" ∨ ex.source = "company" then M
       else dinsert M r.title (mkSection r "developer")) := by
  unfold developerStep
  rw [hfind]
  by_cases h : ex.source = "universal" ∨ ex.source = "company"
  · rcases h with h1 | h1 <;> simp [h1]
  · rcases not_or.mp h with ⟨h1, h2⟩
    simp [h, h1, h2]

/-! ### Fold lemmas: what a whole tier pass does to one identity -/

theorem universalStep_preserve (m : Mapping) (r : RawSection) (T : String)
    (h : r.title ≠ T) : find? (universalStep m r) T = find? m T :=
  find?_dinsert_ne m T r.title _ h

theorem companyStep_preserve (m : Mapping) (r : RawSection) (T : String)
    (h : r.title ≠ T) : find? (companyStep m r) T = find? m T :=
  find?_dinsert_ne m T r.title _ h

theorem projectStep_preserve (m : Mapping) (r : RawSection) (T : String)
    (h : r.title ≠ T) : find? (projectStep m r) T = find? m T := by
  unfold projectStep
  cases hf : find? m r.title with
  | none => exact find?_dinsert_ne m T r.title _ h
  | some ex =>
      by_cases hc : ex.override_allowed = false ∧ ex.source = "company"
      · simp [hc.1, hc.2]
      · simp only [Bool.and_eq_true, Bool.not_eq_true', beq_iff_eq]
        rw [if_neg (by simpa using hc)]
        exact find?_dinsert_ne m T r.title _ h

theorem developerStep_preserve (m : Mapping) (r : RawSection) (T : String)
    (h : r.title ≠ T) : find? (developerStep m r) T = find? m T := by
  unfold developerStep
  cases hf : find? m r.title with
  | none => exact find?_dinsert_ne m T r.title _ h
  | some ex =>
      by_cases hc : ex.source = "universal" ∨ ex.source = "company"
      · rcases hc with hc | hc <;> simp [hc]
      · simp only [Bool.or_eq_true, beq_iff_eq]
        rw [if_neg (by simpa using hc)]
        exact find?_dinsert_ne m T r.title _ h

theorem fold_preserve (step : Mapping → RawSection → Mapping) (T : String)
    (hne : ∀ m r, r.title ≠ T → find? (step m r) T = find? m T)
    (L : List RawSection) :
    ∀ (M : Mapping), (∀ r ∈ L, r.title ≠ T) →
      find? (L.foldl step M) T = find? M T := by
  induction L with
  | nil => intro M _; rfl
  | cons r L ih =>
      intro M h
      rw [List.foldl_cons,
        ih (step M r) (fun x hx => h x (List.mem_cons_of_mem _ hx)),
        hne M r (h r (List.mem_cons_self _ _))]

theorem fold_found (step : Mapping → RawSection → Mapping) (T : String)
    (rX : RawSection) (valX : Section) (M : Mapping)
    (hne : ∀ m r, r.title ≠ T → find? (step m r) T = find? m T)
    (hthis : ∀ m, find? m T = find? M T → find? (step m rX) T = some valX)
    (L : List RawSection) :
    ∀ (m : Mapping), find? m T = find? M T →
      L.filter (fun r => r.title == T) = [rX] →
      find? (L.foldl step m) T = some valX := by
  induction L with
  | nil => intro m _ hfilter; simp at hfilter
  | cons r L ih =>
      intro m hm hfilter
      rw [List.filter_cons] at hfilter
      by_cases hr : r.title = T
      · rw [if_pos (by simpa using hr)] at hfilter
        obtain ⟨rfl, hnil⟩ := List.cons_eq_cons.mp hfilter
        rw [List.foldl_cons,
          fold_preserve step T hne L (step m r)
            (fun x hx => by
              have := List.filter_eq_nil_iff.mp hnil x hx
              simpa using this)]
        exact hthis m hm
      · rw [if_neg (by simpa using hr)] at hfilter
        rw [List.foldl_cons]
        exact ih (step m r) (by rw [hne m r hr, hm]) hfilter

theorem langfileFold_preserve (stem : String) (T : String)
    (rs : List RawSection) (h : ∀ r ∈ rs, stem ++ ":" ++ r.title ≠ T) :
    ∀ m, find? (rs.foldl (langStep stem) m) T = find? m T := by
  induction rs with
  | nil => intro m; rfl
  | cons r rs ih =>
      intro m
      rw [List.foldl_cons,
        ih (fun x hx => h x (List.mem_cons_of_mem _ hx)) (langStep stem m r)]
      exact find?_dinsert_ne m T _ _ (h r (List.mem_cons_self _ _))

theorem langFold_preserve (T : String)
    (langs : List (String × List RawSection))
    (h : ∀ lf ∈ langs, ∀ r ∈ lf.2, lf.1 ++ ":" ++ r.title ≠ T) :
    ∀ m, find? (langs.foldl (fun m lf => lf.2.foldl (langStep lf.1) m) m) T
      = find? m T := by
  induction langs with
  | nil => intro m; rfl
  | cons lf langs ih =>
      intro m
      rw [List.foldl_cons,
        ih (fun x hx => h x (List.mem_cons_of_mem _ hx)) _,
        langfileFold_preserve lf.1 T lf.2 (h lf (List.mem_cons_self _ _)) m]

theorem loadUniversalBase_found (LU : List RawSection)
    (langs : List (String × List RawSection)) (T : String) (rU : RawSection)
    (hU : LU.filter (fun r => r.title == T) = [rU])
    (hlangs : ∀ lf ∈ langs, ∀ r ∈ lf.2, lf.1 ++ ":" ++ r.title ≠ T) :
    find? (loadUniversalBase (some LU) langs) T = some (mkSection rU "universal") := by
  have hT : rU.title = T := by
    have : rU ∈ LU.filter (fun r => r.title == T) := by rw [hU]; exact List.mem_singleton.mpr rfl
    simpa using List.of_mem_filter this
  unfold loadUniversalBase
  rw [langFold_preserve T langs hlangs]
  exact fold_found universalStep T rU (mkSection rU "universal") ([] : Mapping)
    (fun m r => universalStep_preserve m r T)
    (fun m _ => by rw [universalStep, hT]; exact find?_dinsert_self m T _)
    LU ([] : Mapping) rfl hU

/-! ### Claim C2 -/

/-- C2: if the accumulated mapping holds a section for the incoming
project-tier section's identity whose `override_allowed` is false and
whose tier is the organization ("company") tier, the fold step leaves the
whole accumulated mapping unchanged: the organization value is retained
and the incoming section is not inserted. -/
theorem c2_org_lock_retained (M : Mapping) (r : RawSection) (ex : Section)
    (hfind : find? M r.title = some ex)
    (hoa : ex.override_allowed = false) (hsrc : ex.source = "company") :
    projectStep M r = M := by
  rw [projectStep_eq M r ex hfind, if_pos ⟨hoa, hsrc⟩]

theorem c2_org_lock_retained_witness :
    projectStep [("A", secCompanyLocked)] ⟨"A", "project attempt", 1⟩
      = [("A", secCompanyLocked)] :=
  c2_org_lock_retained [("A", secCompanyLocked)] ⟨"A", "project attempt", 1⟩
    secCompanyLocked rfl rfl rfl

/-! ### Claim C5 -/

/-- C5: the individual ("developer") fold step rejects an override of any
existing section whose tier is universal or organization — regardless of
its `override_allowed` flag, which the rule never consults — and replaces
the entry exactly when the existing tier is project or individual. -/
theorem c5_individual_scoping (M : Mapping) (r : RawSection) (ex : Section)
    (hfind : find? M r.title = some ex) :
    developerStep M r =
      (if ex.source = "universal" ∨ ex.source = "company" then M
       else dinsert M r.title (mkSection r "developer")) :=
  developerStep_eq M r ex hfind

theorem c5_individual_scoping_witness :
    developerStep [("A", secU)] ⟨"A", "dev tweak", 1⟩ = [("A", secU)] := by
  have h := c5_individual_scoping [("A", secU)] ⟨"A", "dev tweak", 1⟩ secU rfl
  rw [h, if_pos (show secU.source = "universal" ∨ secU.source = "company" from Or.inl rfl)]

/-! ### Claim C9 -/

/-- C9: an incoming section whose body is identical to the existing entry
of the same identity still replaces it wherever the tier's permission
rule admits a replacement; content equality never suppresses the
replacement, and the new entry carries the incoming tier's provenance,
fingerprint and `override_allowed`. -/
theorem c9_content_equality_replaces (M : Mapping) (r : RawSection) (ex : Section)
    (hfind : find? M r.title = some ex) (_hbody : r.content = ex.content) :
    companyStep M r = dinsert M r.title (mkSection r "company") ∧
    (¬(ex.override_allowed = false ∧ ex.source = "company") →
      projectStep M r = dinsert M r.title (mkSection r "project")) ∧
    (¬(ex.source = "universal" ∨ ex.source = "company") →
      developerStep M r = dinsert M r.title (mkSection r "developer")) := by
  refine ⟨rfl, ?_, ?_⟩
  · intro h; rw [projectStep_eq M r ex hfind, if_neg h]
  · intro h; rw [developerStep_eq M r ex hfind, if_neg h]

theorem c9_content_equality_replaces_witness :
    companyStep [("A", secProjSame)] ⟨"A", "same", 1⟩
      = dinsert [("A", secProjSame)] "A" (mkSection ⟨"A", "same", 1⟩ "company") ∧
    projectStep [("A", secProjSame)] ⟨"A", "same", 1⟩
      = dinsert [("A", secProjSame)] "A" (mkSection ⟨"A", "same", 1⟩ "project") ∧
    developerStep [("A", secProjSame)] ⟨"A", "same", 1⟩
      = dinsert [("A", secProjSame)] "A" (mkSection ⟨"A", "same", 1⟩ "developer") := by
  obtain ⟨h1, h2, h3⟩ :=
    c9_content_equality_replaces [("A", secProjSame)] ⟨"A", "same", 1⟩ secProjSame rfl rfl
  exact ⟨h1, h2 (by decide), h3 (by decide)⟩

/-! ### Claim C10 -/

/-- C10: `override_allowed` blocks a replacement only in the one place the
project-tier rule consults it (existing tier organization, incoming tier
project): the organization ("company") tier replaces every same-identity
section unconditionally, the project tier replaces any entry that is not
a non-overridable company section (in particular a universal section with
`override_allowed = false`), and the individual ("developer") tier's
rejection rule depends only on the existing tier, never on
`override_allowed`. -/
theorem c10_override_flag_scope :
    (∀ (M : Mapping) (r : RawSection),
      companyStep M r = dinsert M r.title (mkSection r "company")) ∧
    (∀ (M : Mapping) (r : RawSection) (ex : Section), find? M r.title = some ex →
      projectStep M r =
        (if ex.override_allowed = false ∧ ex.source = "company" then M
         else dinsert M r.title (mkSection r "project"))) ∧
    (∀ (M : Mapping) (r : RawSection) (ex : Section), find? M r.title = some ex →
      developerStep M r =
        (if ex.source = "universal" ∨ ex.source = "company" then M
         else dinsert M r.title (mkSection r "developer"))) :=
  ⟨fun _ _ => rfl, projectStep_eq, developerStep_eq⟩

theorem c10_override_flag_scope_witness :
    companyStep [("A", secULocked)] ⟨"A", "co", 1⟩
      = dinsert [("A", secULocked)] "A" (mkSection ⟨"A", "co", 1⟩ "company") ∧
    projectStep [("A", secULocked)] ⟨"A", "pr", 1⟩
      = dinsert [("A", secULocked)] "A" (mkSection ⟨"A", "pr", 1⟩ "project") ∧
    developerStep [("A", secProjSame)] ⟨"A", "dev", 1⟩
      = dinsert [("A", secProjSame)] "A" (mkSection ⟨"A", "dev", 1⟩ "developer") := by
  refine ⟨c10_override_flag_scope.1 [("A", secULocked)] ⟨"A", "co", 1⟩, ?_, ?_⟩
  · have h := c10_override_flag_scope.2.1 [("A", secULocked)] ⟨"A", "pr", 1⟩ secULocked rfl
    rw [h, if_neg (by decide)]
  · have h := c10_override_flag_scope.2.2 [("A", secProjSame)] ⟨"A", "dev", 1⟩ secProjSame rfl
    rw [h, if_neg (by decide)]

/-! ### Claim C1 -/

/-- C1 (code evaluation at the failing input): with the organization
tier holding a non-overridable section "A" and the project tier
attempting to override it, the resolver fold rejects the attempt (the
mapping is unchanged), yet the Change Auditor — which infers
`policy_violations` after the fact by diffing the before/after mappings —
returns an empty `policy_violations` set: the rejection left no
project-tier trace in `after` to diff against, so the claimed single
violation entry is never produced. -/
theorem c1_auditor_misses_rejection :
    applyProjectCustomizations [("A", secCompanyLocked)]
        (some [⟨"A", "project attempt", 1⟩])
      = [("A", secCompanyLocked)] ∧
    (analyzeChanges true [("A", secU)]
        (applyProjectCustomizations [("A", secCompanyLocked)]
          (some [⟨"A", "project attempt", 1⟩]))).policy_violations = [] := by
  constructor <;> rfl

/-! ### Change Auditor lemmas -/

theorem analyzeChanges_nil_before_violations (cfg : Bool) (after : Mapping) :
    (analyzeChanges cfg [] after).policy_violations = [] := by
  simp only [analyzeChanges]
  cases cfg with
  | false => rfl
  | true =>
      simp only [if_true]
      refine List.filterMap_eq_nil_iff.mpr ?_
      intro k _
      cases h1 : find? after k with
      | none => rfl
      | some s =>
          simp only [h1]
          cases h2 : (s.source == "project") with
          | false => simp [h2]
          | true => simp [h2, show find? ([] : Mapping) k = none from rfl]

theorem analyzeChanges_self_added (cfg : Bool) (m : Mapping) :
    (analyzeChanges cfg m m).added = [] := by
  simp only [analyzeChanges]
  refine List.filterMap_eq_nil_iff.mpr ?_
  intro k hk
  obtain ⟨s, hs⟩ := find?_isSome_of_mem_keys m k hk
  simp [hs]

theorem analyzeChanges_self_removed (cfg : Bool) (m : Mapping) :
    (analyzeChanges cfg m m).removed = [] := by
  simp only [analyzeChanges]
  refine List.filterMap_eq_nil_iff.mpr ?_
  intro k hk
  obtain ⟨s, hs⟩ := find?_isSome_of_mem_keys m k hk
  simp [hs]

theorem analyzeChanges_self_modified (cfg : Bool) (m : Mapping) :
    (analyzeChanges cfg m m).modified = [] := by
  simp only [analyzeChanges]
  refine List.filterMap_eq_nil_iff.mpr ?_
  intro k hk
  obtain ⟨s, hs⟩ := find?_isSome_of_mem_keys m k hk
  simp [hs]

/-! ### Claim C3 -/

/-- C3: a dry-run invocation never writes the resolved document to the
destination (it only produces the report and preview), and the commit
branch raises the policy error — performing no destination write — on any
non-empty `policy_violations` set. -/
theorem c3_no_destination_write (inp : MergerInputs) (username : Option String)
    (now : String) (changes : Changes) (content : String) (destExists : Bool) :
    destOf (merge inp username true now) = none ∧
    (changes.policy_violations ≠ [] →
      commitPhase changes content destExists =
        Except.error "Policy violations prevent merge. Run with --dry-run to see details.") := by
  constructor
  · rfl
  · intro h
    unfold commitPhase
    cases hv : changes.policy_violations with
    | nil => exact absurd hv h
    | cons a l => simp [hv]

theorem c3_no_destination_write_witness :
    destOf (merge emptyInputs none true "2024-01-01 00:00:00") = none ∧
    commitPhase
        { added := [], removed := [], modified := [], conflicts := [],
          policy_violations := [⟨"A", "Cannot override company policy", "project"⟩] }
        "doc" false =
      Except.error "Policy violations prevent merge. Run with --dry-run to see details." := by
  have h := c3_no_destination_write emptyInputs none "2024-01-01 00:00:00"
    { added := [], removed := [], modified := [], conflicts := [],
      policy_violations := [⟨"A", "Cannot override company policy", "project"⟩] }
    "doc" false
  exact ⟨h.1, h.2 (by decide)⟩

/-! ### Claim C4 -/

/-- C4 (counterexample): the rendered document embeds the run's
wall-clock timestamp in its header, so two commits of the identical
(empty) tier inputs at different clock readings write different bytes —
the resolved documents of two runs are not byte-identical as claimed. -/
theorem c4_counterexample :
    destOf (merge emptyInputs none false "2024-01-01 00:00:00") ≠
      destOf (merge emptyInputs none false "2024-01-01 00:00:01") := by
  decide

/-- C4 (amended): resolving the same tier inputs twice yields the same
resolved mapping — so the diff between the two runs' resolved mappings
has empty `added`, `removed` and `modified` sets — and the rendered
documents are byte-identical whenever the two runs render the same
timestamp (the generated-at header line being the only nondeterminism). -/
theorem c4_idempotent_runs (inp : MergerInputs) (username : Option String)
    (cfg : Bool) (t1 t2 : String) :
    (t1 = t2 → merge inp username false t1 = merge inp username false t2) ∧
    (analyzeChanges cfg (resolveSections inp username)
        (resolveSections inp username)).added = [] ∧
    (analyzeChanges cfg (resolveSections inp username)
        (resolveSections inp username)).removed = [] ∧
    (analyzeChanges cfg (resolveSections inp username)
        (resolveSections inp username)).modified = [] :=
  ⟨fun h => by rw [h],
   analyzeChanges_self_added cfg _,
   analyzeChanges_self_removed cfg _,
   analyzeChanges_self_modified cfg _⟩

theorem c4_idempotent_runs_witness :
    merge emptyInputs none false "2024-06-01 10:00:00"
      = merge emptyInputs none false "2024-06-01 10:00:00" ∧
    (analyzeChanges true (resolveSections emptyInputs none)
        (resolveSections emptyInputs none)).added = [] ∧
    (analyzeChanges true (resolveSections emptyInputs none)
        (resolveSections emptyInputs none)).removed = [] ∧
    (analyzeChanges true (resolveSections emptyInputs none)
        (resolveSections emptyInputs none)).modified = [] := by
  have h := c4_idempotent_runs emptyInputs none true
    "2024-06-01 10:00:00" "2024-06-01 10:00:00"
  exact ⟨h.1 rfl, h.2.1, h.2.2.1, h.2.2.2⟩

/-! ### Claim C7 -/

/-- C7 (counterexample): with the universal tier's source material
unreadable (no core template, no language files), the pipeline completes
a commit-mode run successfully instead of raising a fatal error. -/
theorem c7_counterexample :
    isOk (merge emptyInputs none false "2024-01-01 00:00:00") = true := rfl

/-- C7 (amended): when the universal tier's source material cannot be
read, the universal tier contributes an empty mapping and the pipeline
proceeds without any fatal error — absent material is treated as
"contributes nothing" for the universal tier exactly as for the other
tiers. -/
theorem c7_universal_absent_not_fatal (inp : MergerInputs) (username : Option String)
    (dryRun : Bool) (now : String)
    (hcore : inp.universalCore = none) (hlangs : inp.universalLangs = []) :
    loadUniversalBase inp.universalCore inp.universalLangs = ([] : Mapping) ∧
    isOk (merge inp username dryRun now) = true := by
  have hload : loadUniversalBase inp.universalCore inp.universalLangs = ([] : Mapping) := by
    rw [hcore, hlangs]; rfl
  refine ⟨hload, ?_⟩
  cases dryRun with
  | true => rfl
  | false =>
      unfold merge
      simp only [Bool.false_eq_true, if_false]
      rw [hload]
      have hv := analyzeChanges_nil_before_violations inp.hasCompanyCfg
        (resolveSections inp username)
      unfold commitPhase
      simp [hv, isOk]

theorem c7_universal_absent_not_fatal_witness :
    loadUniversalBase emptyInputs.universalCore emptyInputs.universalLangs = ([] : Mapping) ∧
    isOk (merge emptyInputs none true "2024-01-01 00:00:00") = true :=
  c7_universal_absent_not_fatal emptyInputs none true "2024-01-01 00:00:00" rfl rfl

/-! ### Per-tier fold results for a single identity -/

theorem filter_singleton_title (L : List RawSection) (T : String) (rX : RawSection)
    (h : L.filter (fun r => r.title == T) = [rX]) : rX.title = T := by
  have : rX ∈ L.filter (fun r => r.title == T) := by
    rw [h]; exact List.mem_singleton.mpr rfl
  simpa using List.of_mem_filter this

theorem companyFold_found (L : List RawSection) (M : Mapping) (T : String)
    (rC : RawSection) (h : L.filter (fun r => r.title == T) = [rC]) :
    find? (L.foldl companyStep M) T = some (mkSection rC "company") := by
  have hT := filter_singleton_title L T rC h
  exact fold_found companyStep T rC (mkSection rC "company") M
    (fun m r => companyStep_preserve m r T)
    (fun m _ => by rw [companyStep, hT]; exact find?_dinsert_self m T _)
    L M rfl h

theorem projectFold_found (L : List RawSection) (M : Mapping) (T : String)
    (rP : RawSection) (ex : Section)
    (hex : find? M T = some ex)
    (hnb : ¬(ex.override_allowed = false ∧ ex.source = "company"))
    (h : L.filter (fun r => r.title == T) = [rP]) :
    find? (L.foldl projectStep M) T = some (mkSection rP "project") := by
  have hT := filter_singleton_title L T rP h
  refine fold_found projectStep T rP (mkSection rP "project") M
    (fun m r => projectStep_preserve m r T) ?_ L M rfl h
  intro m hm
  have hfm : find? m rP.title = some ex := by rw [hT, hm, hex]
  rw [projectStep_eq m rP ex hfm, if_neg hnb, hT]
  exact find?_dinsert_self m T _

theorem developerFold_found (L : List RawSection) (M : Mapping) (T : String)
    (rD : RawSection) (ex : Section)
    (hex : find? M T = some ex)
    (hnb : ¬(ex.source = "universal" ∨ ex.source = "company"))
    (h : L.filter (fun r => r.title == T) = [rD]) :
    find? (L.foldl developerStep M) T = some (mkSection rD "developer") := by
  have hT := filter_singleton_title L T rD h
  refine fold_found developerStep T rD (mkSection rD "developer") M
    (fun m r => developerStep_preserve m r T) ?_ L M rfl h
  intro m hm
  have hfm : find? m rD.title = some ex := by rw [hT, hm, hex]
  rw [developerStep_eq m rD ex hfm, if_neg hnb, hT]
  exact find?_dinsert_self m T _

/-! ### Claim C6 -/

/-- C6: for a section identity supplied by all four tiers (every parsed
section carries `override_allowed = true`), the resolved entry's tier is
individual ("developer") when the individual tier is enabled (a username
was supplied and the project config enables developer overrides), else
project; the organization/universal fallbacks of the precedence chain are
unreachable when the project tier supplies the identity, since the
project tier has no enablement flag beyond the presence of its material. -/
theorem c6_precedence (inp : MergerInputs) (T u : String)
    (LU LC LP LD : List RawSection) (rU rC rP rD : RawSection)
    (hU : inp.universalCore = some LU)
    (hUf : LU.filter (fun r => r.title == T) = [rU])
    (hlangs : ∀ lf ∈ inp.universalLangs, ∀ r ∈ lf.2, lf.1 ++ ":" ++ r.title ≠ T)
    (hCdir : inp.companyDirExists = true)
    (hCrole : inp.roleExclusions = none)
    (hC : inp.companyStandards = some LC)
    (hCf : LC.filter (fun r => r.title == T) = [rC])
    (hP : inp.projectOverrides = some LP)
    (hPf : LP.filter (fun r => r.title == T) = [rP])
    (hD : inp.developerFile = some LD)
    (hDf : LD.filter (fun r => r.title == T) = [rD]) :
    find? (resolveSections inp (some u)) T =
      some (if inp.developerEnabled then mkSection rD "developer"
            else mkSection rP "project") ∧
    find? (resolveSections inp none) T = some (mkSection rP "project") := by
  have h1 : find? (loadUniversalBase inp.universalCore inp.universalLangs) T
      = some (mkSection rU "universal") := by
    rw [hU]; exact loadUniversalBase_found LU inp.universalLangs T rU hUf hlangs
  have h2 : find? (applyCompanyOverrides
      (loadUniversalBase inp.universalCore inp.universalLangs)
      inp.companyDirExists inp.companyStandards inp.roleExclusions) T
      = some (mkSection rC "company") := by
    rw [hCdir, hC, hCrole]
    show find? (LC.foldl companyStep _) T = _
    exact companyFold_found LC _ T rC hCf
  have h3 : find? (applyProjectCustomizations
      (applyCompanyOverrides (loadUniversalBase inp.universalCore inp.universalLangs)
        inp.companyDirExists inp.companyStandards inp.roleExclusions)
      inp.projectOverrides) T = some (mkSection rP "project") := by
    rw [hP]
    show find? (LP.foldl projectStep _) T = _
    exact projectFold_found LP _ T rP (mkSection rC "company") h2
      (by simp [mkSection]) hPf
  constructor
  · show find? (applyDeveloperPreferences _ inp.developerEnabled inp.developerFile) T = _
    cases hE : inp.developerEnabled with
    | false =>
        simp only [Bool.false_eq_true, if_false]
        show find? (applyProjectCustomizations _ _) T = _
        exact h3
    | true =>
        simp only [if_true]
        rw [hD]
        show find? (LD.foldl developerStep _) T = _
        exact developerFold_found LD _ T rD (mkSection rP "project") h3
          (by simp [mkSection]) hDf
  · exact h3

theorem c6_precedence_witness :
    find? (resolveSections allTiersInputs (some "jdoe")) "A" =
      some (if allTiersInputs.developerEnabled
            then mkSection ⟨"A", "d-content", 1⟩ "developer"
            else mkSection ⟨"A", "p-content", 1⟩ "project") ∧
    find? (resolveSections allTiersInputs none) "A" =
      some (mkSection ⟨"A", "p-content", 1⟩ "project") :=
  c6_precedence allTiersInputs "A" "jdoe"
    [⟨"A", "u-content", 1⟩] [⟨"A", "c-content", 1⟩]
    [⟨"A", "p-content", 1⟩] [⟨"A", "d-content", 1⟩]
    ⟨"A", "u-content", 1⟩ ⟨"A", "c-content", 1⟩
    ⟨"A", "p-content", 1⟩ ⟨"A", "d-content", 1⟩
    rfl rfl (by simp [allTiersInputs]) rfl rfl rfl rfl rfl rfl rfl rfl

/-! ### Ordering lemmas for the WRITE step -/

theorem charListLt_asymm (a b : List Char) (h : charListLt a b = true) :
    charListLt b a = false := by
  induction a generalizing b with
  | nil =>
      cases b with
      | nil => simp [charListLt] at h
      | cons y bs => simp [charListLt]
  | cons x as ih =>
      cases b with
      | nil => simp [charListLt] at h
      | cons y bs =>
          simp only [charListLt, Bool.or_eq_true, Bool.and_eq_true,
            decide_eq_true_eq, beq_iff_eq] at h
          simp only [charListLt, Bool.or_eq_false_iff, Bool.and_eq_false_iff,
            decide_eq_false_iff_not]
          rcases h with h | ⟨h1, h2⟩
          · exact ⟨by omega, Or.inl (by simp; omega)⟩
          · exact ⟨by omega, Or.inr (ih bs h2)⟩

theorem charListLt_negtrans (a b c : List Char)
    (hba : charListLt b a = false) (hcb : charListLt c b = false) :
    charListLt c a = false := by
  induction a generalizing b c with
  | nil =>
      cases c with
      | nil => rfl
      | cons z cs => rfl
  | cons x as ih =>
      cases c with
      | nil =>
          cases b with
          | nil => exact absurd hba (by simp [charListLt])
          | cons y bs => exact absurd hcb (by simp [charListLt])
      | cons z cs =>
          cases b with
          | nil => exact absurd hba (by simp [charListLt])
          | cons y bs =>
              simp only [charListLt, Bool.or_eq_false_iff, Bool.and_eq_false_iff,
                decide_eq_false_iff_not, beq_eq_false_iff_ne, ne_eq] at hba hcb
              simp only [charListLt, Bool.or_eq_false_iff, Bool.and_eq_false_iff,
                decide_eq_false_iff_not, beq_eq_false_iff_ne, ne_eq]
              obtain ⟨hba1, hba2⟩ := hba
              obtain ⟨hcb1, hcb2⟩ := hcb
              refine ⟨by omega, ?_⟩
              by_cases hzx : z.toNat = x.toNat
              · right
                have hyx : y.toNat = x.toNat := by omega
                have hzy : z.toNat = y.toNat := by omega
                rcases hba2 with h | h
                · exact absurd hyx h
                · rcases hcb2 with h' | h'
                  · exact absurd hzy h'
                  · exact ih bs cs h h'
              · exact Or.inl hzx

theorem keyLt_asymm (a b : Section) (h : keyLt a b = true) :
    keyLt b a = false := by
  simp only [keyLt, Bool.or_eq_true, Bool.and_eq_true,
    decide_eq_true_eq, beq_iff_eq] at h
  simp only [keyLt, Bool.or_eq_false_iff, Bool.and_eq_false_iff,
    decide_eq_false_iff_not, beq_eq_false_iff_ne, ne_eq]
  rcases h with h | ⟨h1, h2⟩
  · exact ⟨by omega, Or.inl (by omega)⟩
  · exact ⟨by omega, Or.inr (charListLt_asymm _ _ h2)⟩

theorem keyLt_negtrans (a b c : Section)
    (hba : keyLt b a = false) (hcb : keyLt c b = false) :
    keyLt c a = false := by
  simp only [keyLt, Bool.or_eq_false_iff, Bool.and_eq_false_iff,
    decide_eq_false_iff_not, beq_eq_false_iff_ne, ne_eq] at hba hcb
  simp only [keyLt, Bool.or_eq_false_iff, Bool.and_eq_false_iff,
    decide_eq_false_iff_not, beq_eq_false_iff_ne, ne_eq]
  obtain ⟨hba1, hba2⟩ := hba
  obtain ⟨hcb1, hcb2⟩ := hcb
  refine ⟨by omega, ?_⟩
  by_cases hca : c.level = a.level
  · right
    have hbeq : b.level = a.level := by omega
    have hcbeq : c.level = b.level := by omega
    rcases hba2 with h | h
    · exact absurd hbeq h
    · rcases hcb2 with h' | h'
      · exact absurd hcbeq h'
      · exact charListLt_negtrans _ _ _ h h'
  · exact Or.inl hca

theorem mem_insSorted (s x : Section) (l : List Section) :
    x ∈ insSorted s l ↔ x = s ∨ x ∈ l := by
  induction l with
  | nil => simp [insSorted]
  | cons t ts ih =>
      unfold insSorted
      cases hk : keyLt t s with
      | true => simp only [if_true, List.mem_cons, ih]; tauto
      | false => simp only [Bool.false_eq_true, if_false, List.mem_cons]

theorem pairwise_insSorted (s : Section) (l : List Section)
    (h : List.Pairwise keyLe l) : List.Pairwise keyLe (insSorted s l) := by
  induction l with
  | nil => simp [insSorted, List.Pairwise]
  | cons t ts ih =>
      obtain ⟨ht, hts⟩ := List.pairwise_cons.mp h
      unfold insSorted
      cases hk : keyLt t s with
      | true =>
          refine List.pairwise_cons.mpr ⟨?_, ih hts⟩
          intro x hx
          rcases (mem_insSorted s x ts).mp hx with rfl | hx
          · exact keyLt_asymm t x hk
          · exact ht x hx
      | false =>
          refine List.pairwise_cons.mpr ⟨?_, h⟩
          intro x hx
          rcases List.mem_cons.mp hx with rfl | hx
          · exact hk
          · exact keyLt_negtrans s t x hk (ht x hx)

theorem pairwise_sortSections (l : List Section) :
    List.Pairwise keyLe (sortSections l) := by
  induction l with
  | nil => simp [sortSections, List.Pairwise]
  | cons x xs ih => exact pairwise_insSorted x (sortSections xs) ih

/-! ### Claim C8 -/

/-- C8 (counterexample): the WRITE step sorts the section *values* by
`(level, title)`; the mapping identity (key) is not part of the sort key.
For a mapping holding the scope-qualified identity `"python:Alpha"`
(title `"Alpha"`) and the plain identity `"Beta"`, identity-ascending
order would render `"Beta"` first (`"Beta" < "python:Alpha"`), but the
code renders `"Alpha"` first — so the output is not ordered by level then
identity as claimed. -/
theorem c8_counterexample :
    sortSections (valuesOf [("python:Alpha", sectionAlpha), ("Beta", sectionBeta)]) ≠
      specRenderOrder [("python:Alpha", sectionAlpha), ("Beta", sectionBeta)] := by
  decide

/-- C8 (amended): the WRITE step renders the resolved sections ordered by
`level` ascending and, within equal level, by section *title* ascending
(the scope prefix of a composite identity is not consulted); the order is
still a deterministic function of the resolved mapping. `keyLe a b` says
`b`'s `(level, title)` sort key is not strictly below `a`'s. -/
theorem c8_render_order (m : Mapping) :
    List.Pairwise keyLe (sortSections (valuesOf m)) :=
  pairwise_sortSections (valuesOf m)

end ClaudeMerger
